import Mathlib

/-!
Shallow embedding of the `quotes` repository (quotes_lib, quotes_server,
quotes_client) at the byte level.

Bytes are modelled as `Nat` (values below 256 where the source manipulates
`u8`); Rust `String`s that travel over the wire are modelled by their UTF-8
byte sequences, so `String::from_utf8` / `str::as_bytes` become the identity
on byte lists.  Machine-integer casts are explicit `% 2 ^ w` operations.
Fallible Rust functions returning `Result` are embedded with the `Res` type
below.
-/

namespace QuotesLib

/-- Embedding of Rust `Result`. -/
inductive Res (ε : Type) (α : Type) where
  | ok (a : α) : Res ε α
  | err (e : ε) : Res ε α
deriving DecidableEq, Repr

/-- Embedding of `quotes_lib::error::QuotesError` (payload messages dropped:
the source stores `to_string()` renderings that no claim inspects). -/
inductive QuotesError where
  | ioError
  | parseQuoteError
  | parseClientMessageError
  | parseServerMessageError
  | parseDatagramError
deriving DecidableEq, Repr

/-- Big-endian bytes of a `u16` value `n` (`n < 2 ^ 16`), as in
`u16::to_be_bytes`. -/
def u16be (n : Nat) : List Nat := [n / 256, n % 256]

/-- Big-endian bytes of a `u32` value (`u32::to_be_bytes`). -/
def u32be (n : Nat) : List Nat :=
  [n / 16777216 % 256, n / 65536 % 256, n / 256 % 256, n % 256]

/-- Big-endian bytes of a `u64` value (`u64::to_be_bytes`; also the bytes of
`f64::to_be_bytes` when `n` is the bit pattern of the float). -/
def u64be (n : Nat) : List Nat :=
  [n / 72057594037927936 % 256, n / 281474976710656 % 256,
   n / 1099511627776 % 256, n / 4294967296 % 256,
   n / 16777216 % 256, n / 65536 % 256, n / 256 % 256, n % 256]

/-- Big-endian decoding of a byte list, as in `uN::from_be_bytes`. -/
def beBytesToNat (l : List Nat) : Nat := l.foldl (fun acc b => acc * 256 + b) 0

/-- Embedding of `quotes_lib::quote::Quote`.  `ticker` is the UTF-8 byte
sequence of the ticker string; `price` is the `u64` bit pattern of the `f64`
price (the source only moves it through `to_be_bytes`/`from_be_bytes`, so the
bit pattern is the faithful representation for bit-exact statements). -/
structure Quote where
  ticker : List Nat
  price : Nat
  volume : Nat
  timestamp : Nat
deriving DecidableEq, Repr

/-- `Quote::SPLITTER`, the byte `b'|'`. -/
def splitterByte : Nat := 124

/-- Embedding of `impl Into<Vec<u8>> for &Quote`. -/
def Quote.toBytes (q : Quote) : List Nat :=
  q.ticker ++ [splitterByte] ++ u64be q.price ++ [splitterByte] ++
    u32be q.volume ++ [splitterByte] ++ u64be q.timestamp

/-- Embedding of `impl TryFrom<&[u8]> for Quote`: split on `|`, drop empty
parts, check the widths, decode big-endian fields.  `String::from_utf8` on
the ticker bytes is the identity in this byte-level model, so the source's
extra rejection of non-UTF-8 ticker bytes is not reproduced: statements of
successful parses are only made on tickers that come from real `String`s,
and rejection statements are unaffected (the source rejects at least as
much as the model). -/
def Quote.tryFrom (value : List Nat) : Res QuotesError Quote :=
  let parts := (value.splitOn splitterByte).filter (fun part => !part.isEmpty)
  match parts with
  | [t, p, v, s] =>
    if 1 ≤ t.length ∧ p.length = 8 ∧ v.length = 4 ∧ s.length = 8 then
      .ok ⟨t, beBytesToNat p, beBytesToNat v, beBytesToNat s⟩
    else .err .parseQuoteError
  | _ => .err .parseQuoteError

/-- Validity of a `Quote` value as a Rust value of the claim's shape: a
non-empty ticker of bytes below 256 not containing `b'|'`, and fields within
their machine-integer ranges. -/
def Quote.valid (q : Quote) : Prop :=
  q.ticker ≠ [] ∧ splitterByte ∉ q.ticker ∧ (∀ b ∈ q.ticker, b < 256) ∧
    q.price < 2 ^ 64 ∧ q.volume < 2 ^ 32 ∧ q.timestamp < 2 ^ 64

instance (q : Quote) : Decidable q.valid := by
  unfold Quote.valid; infer_instance

/-- `Datagram::HEADER`, the bytes of `b"QDTG"`. -/
def dgHeader : List Nat := [81, 68, 84, 71]

/-- Embedding of `impl Into<Vec<u8>> for Datagram`: magic, two-byte
big-endian length (`data.len() as u16`, i.e. the length modulo `2 ^ 16`),
then the payload.  A `Datagram` is represented by its payload byte list
(`Datagram::new` accepts any payload). -/
def datagramBytes (data : List Nat) : List Nat :=
  dgHeader ++ u16be (data.length % 65536) ++ data

/-- Embedding of `enum ParseResult` from `datagram.rs`. -/
inductive ParseResult where
  | datagram (data : List Nat)
  | notEnoughBytes
  | error
deriving DecidableEq, Repr

/-- Embedding of `impl From<&[u8]> for ParseResult` (the source's
`data_len` binding is inlined: it is `beBytesToNat` of the two bytes after
the header, `u16::from_be_bytes`). -/
def parseResultFrom (value : List Nat) : ParseResult :=
  if value.length < 6 then .notEnoughBytes
  else if value.take 4 ≠ dgHeader then .error
  else if value.length < beBytesToNat ((value.drop 4).take 2) + 6 then .notEnoughBytes
  else .datagram ((value.drop 6).take (beBytesToNat ((value.drop 4).take 2)))

/-- The loop body of `DatagramParser::parse`, acting on the buffer after the
incoming chunk has been appended.  Returns the collected datagram payloads
(or the error) together with the buffer contents left behind.  The drain of
`datagram.bytes_length()` bytes is the `drop (6 + data.length)`. -/
def parseLoop (buf : List Nat) : Res QuotesError (List (List Nat)) × List Nat :=
  match h : parseResultFrom buf with
  | .datagram d =>
    have hlen : 6 ≤ buf.length := by
      unfold parseResultFrom at h
      split_ifs at h with h1 h2
      omega
    let rest := buf.drop (6 + d.length)
    if rest.isEmpty then (.ok [d], rest)
    else
      match parseLoop rest with
      | (.ok ds, r) => (.ok (d :: ds), r)
      | (.err e, r) => (.err e, r)
  | .notEnoughBytes => (.ok [], buf)
  | .error => (.err .parseDatagramError, buf)
termination_by buf.length
decreasing_by simp [List.length_drop]; omega

/-- Embedding of `struct DatagramParser`: the leftover buffer. -/
structure DatagramParser where
  buffer : List Nat
deriving DecidableEq, Repr

/-- `DatagramParser::new`. -/
def DatagramParser.new : DatagramParser := ⟨[]⟩

/-- Embedding of `DatagramParser::parse`: extend the buffer with the
incoming data, then run the parse loop; the leftover becomes the new
buffer state. -/
def DatagramParser.parse (p : DatagramParser) (data : List Nat) :
    Res QuotesError (List (List Nat)) × DatagramParser :=
  match parseLoop (p.buffer ++ data) with
  | (res, rest) => (res, ⟨rest⟩)

/-- The byte stream obtained by concatenating the encodings of a list of
datagram payloads. -/
def dgStream (ds : List (List Nat)) : List Nat := (ds.map datagramBytes).flatten

/-- Driver feeding a list of chunks to one `DatagramParser` in order,
concatenating the outputs of the successive `parse` calls; any failing call
fails the whole run (mirrors a caller checking each `Result`). -/
def feedChunks (p : DatagramParser) (chunks : List (List Nat)) :
    Res QuotesError (List (List Nat)) × DatagramParser :=
  match chunks with
  | [] => (.ok [], p)
  | c :: cs =>
    match p.parse c with
    | (.ok ds, p') =>
      match feedChunks p' cs with
      | (.ok ds', p'') => (.ok (ds ++ ds'), p'')
      | (.err e, p'') => (.err e, p'')
    | (.err e, p') => (.err e, p')

/-! ### SubscribeMessage (`quotes_lib/src/subscribe_message.rs`) -/

/-- Embedding of `std::net::SocketAddrV4`: four octets and a port. -/
structure SockAddrV4 where
  a : Nat
  b : Nat
  c : Nat
  d : Nat
  port : Nat
deriving DecidableEq, Repr

/-- Range validity of a `SocketAddrV4` (guaranteed by the Rust types
`u8`/`u16`). -/
def SockAddrV4.valid (s : SockAddrV4) : Prop :=
  s.a ≤ 255 ∧ s.b ≤ 255 ∧ s.c ≤ 255 ∧ s.d ≤ 255 ∧ s.port ≤ 65535

instance (s : SockAddrV4) : Decidable s.valid := by
  unfold SockAddrV4.valid; infer_instance

/-- Decimal digit bytes of `n`, most significant first, with explicit fuel
(the fuel `n + 1` always suffices since the argument is divided by ten on
each step). -/
def toDecAux : Nat → Nat → List Nat
  | 0, _ => []
  | _ + 1, 0 => []
  | fuel + 1, n + 1 => toDecAux fuel ((n + 1) / 10) ++ [(n + 1) % 10 + 48]

/-- ASCII decimal rendering of `n`, as produced by the `Display` of Rust's
unsigned integers. -/
def natToDec (n : Nat) : List Nat :=
  if n = 0 then [48] else toDecAux (n + 1) n

/-- Embedding of the `Display` of `SocketAddrV4`: `a.b.c.d:port`. -/
def SockAddrV4.toBytes (s : SockAddrV4) : List Nat :=
  natToDec s.a ++ [46] ++ natToDec s.b ++ [46] ++ natToDec s.c ++ [46] ++
    natToDec s.d ++ [58] ++ natToDec s.port

/-- Embedding of `quotes_lib::subscribe_message::SubscribeMessage`; tickers
are UTF-8 byte sequences. -/
structure SubscribeMessage where
  address : SockAddrV4
  tickers : List (List Nat)
deriving DecidableEq, Repr

/-- The bytes of `SubscribeMessage::HEADER`, `"SUBSCRIBE"`. -/
def subscribeHeader : List Nat := [83, 85, 66, 83, 67, 82, 73, 66, 69]

/-- Embedding of `impl Display for SubscribeMessage`:
`"SUBSCRIBE {address} {tickers.join(\",\")}"` as bytes. -/
def SubscribeMessage.toBytes (m : SubscribeMessage) : List Nat :=
  subscribeHeader ++ [32] ++ m.address.toBytes ++ [32] ++
    List.intercalate [44] m.tickers

/-- ASCII whitespace bytes stripped by `str::trim` (the model covers the
ASCII range; all bytes produced by the repository's formatters are ASCII). -/
def isWsByte (n : Nat) : Bool :=
  n = 32 || n = 9 || n = 10 || n = 11 || n = 12 || n = 13

/-- Embedding of `str::trim` at the byte level. -/
def trimBytes (l : List Nat) : List Nat :=
  ((l.dropWhile isWsByte).reverse.dropWhile isWsByte).reverse

/-- Is `n` an ASCII decimal digit byte? -/
def isDigitByte (n : Nat) : Bool := 48 ≤ n && n ≤ 57

/-- Numeric value of a decimal digit byte string (the accumulator loop of
Rust's integer `FromStr`). -/
def decValue (s : List Nat) : Nat := s.foldl (fun acc c => acc * 10 + (c - 48)) 0

/-- Models the integer part of Rust's `FromStr` for `u8`/`u16`: non-empty,
all digits, no redundant leading zero, value within `bound`. -/
def parseDecBounded (bound : Nat) (s : List Nat) : Option Nat :=
  if s ≠ [] ∧ (∀ c ∈ s, isDigitByte c) ∧ (s.length = 1 ∨ s.head? ≠ some 48) ∧
      decValue s ≤ bound
  then some (decValue s) else none

/-- Models `std`'s `FromStr` for `SocketAddrV4` at the byte level: split on
`:` into host and port, split the host on `.` into four octets, parse each
piece as a bounded decimal. -/
def parseSockAddrV4 (s : List Nat) : Option SockAddrV4 :=
  match s.splitOn 58 with
  | [host, portStr] =>
    match host.splitOn 46 with
    | [x, y, z, w] =>
      match parseDecBounded 255 x, parseDecBounded 255 y, parseDecBounded 255 z,
          parseDecBounded 255 w, parseDecBounded 65535 portStr with
      | some av, some bv, some cv, some dv, some pv => some ⟨av, bv, cv, dv, pv⟩
      | _, _, _, _, _ => none
    | _ => none
  | _ => none

/-- Embedding of `impl TryFrom<&str> for SubscribeMessage`: trim, split on
spaces, require three parts starting with the header, parse the address,
split the tickers on commas. -/
def SubscribeMessage.tryFrom (value : List Nat) : Res QuotesError SubscribeMessage :=
  match (trimBytes value).splitOn 32 with
  | [h, addrStr, tickersStr] =>
    if h = subscribeHeader then
      match parseSockAddrV4 addrStr with
      | some addr => .ok ⟨addr, tickersStr.splitOn 44⟩
      | none => .err .parseClientMessageError
    else .err .parseClientMessageError
  | _ => .err .parseClientMessageError

/-! ### Client bootstrap (`quotes_client/src/main.rs`) -/

/-- Embedding of `request_data`: the exact bytes the client writes on the
stream connection, namely `SubscribeMessage::new(127.0.0.1:port, tickers)
.to_string().as_bytes()` — the `Display` rendering with no terminator. -/
def requestDataBytes (localPort : Nat) (tickers : List (List Nat)) : List Nat :=
  SubscribeMessage.toBytes ⟨⟨127, 0, 0, 1, localPort⟩, tickers⟩

/-! ### Send worker (`quotes_server/src/single_client_handler.rs`) -/

/-- Embedding of `SingleClientCommand`. -/
inductive SCCommand where
  | sendQuote (q : Quote)
  | stop
deriving DecidableEq, Repr

/-- Events a session's send worker can emit on the shared channel (the
`Error(address, err)` events; the address is a fixed parameter of the
worker and is omitted). -/
inductive SCEvent where
  | errorEvent
deriving DecidableEq, Repr

/-- Embedding of the loop of `SingleClientHandler::setup_send_thread`.
`cmds` is the sequence of commands the channel will deliver (its end models
the channel disconnecting, on which `recv` errors and the loop breaks);
`sendOk` prescribes the outcome of each successive `socket.send_to` call
(exhaustion means success); `eventOk` tells whether `event_tx.send`
succeeds.  Returns the events emitted and the quotes for which a send was
attempted.  Mirroring the source's `if let Err(io_err) = send_to(..) &&
let Err(..) = event_tx.send(..) { break }`: a failed send emits the error
event, and the loop breaks only when that emission itself fails. -/
def sendWorker (cmds : List SCCommand) (sendOk : List Bool) (eventOk : Bool) :
    List SCEvent × List Quote :=
  match cmds with
  | [] => ([], [])
  | .stop :: _ => ([], [])
  | .sendQuote q :: rest =>
    if sendOk.headD true then
      match sendWorker rest sendOk.tail eventOk with
      | (evs, qs) => (evs, q :: qs)
    else
      if eventOk then
        match sendWorker rest sendOk.tail eventOk with
        | (evs, qs) => (.errorEvent :: evs, q :: qs)
      else ([], [q])

/-- The quotes of the `SendQuote` commands before the first `Stop` — the
quotes a send worker with a healthy socket and channel attempts to send. -/
def takenQuotes : List SCCommand → List Quote
  | [] => []
  | .stop :: _ => []
  | .sendQuote q :: rest => q :: takenQuotes rest

/-! ### Registry (`quotes_server/src/clients_handler.rs`) -/

/-- Abstract actions of `ClientsHandler::remove_and_stop_clients`, recorded
in program order: acquiring/releasing the registry write lock, removing an
address from the session map, and calling `stop()` on the removed
session. -/
inductive LockAction where
  | acquireWrite
  | removeAddr (a : Nat)
  | stopSession (a : Nat)
  | releaseWrite
deriving DecidableEq, Repr

/-- The body of the removal loop: for each address, `guard.remove(addr)`
followed — when an entry was present — by `client.stop()`; the session map
is the list of registered addresses. -/
def removeLoop (m : List Nat) (addrs : List Nat) : List LockAction × List Nat :=
  match addrs with
  | [] => ([], m)
  | a :: rest =>
    if a ∈ m then
      match removeLoop (m.erase a) rest with
      | (tr, m') => (.removeAddr a :: .stopSession a :: tr, m')
    else removeLoop m rest

/-- Embedding of `remove_and_stop_clients` as its trace of lock-relevant
actions: early return on an empty list, otherwise the write guard is taken,
the removal loop runs, and the guard is dropped at the end of its scope. -/
def removeAndStopTrace (m : List Nat) (addrs : List Nat) : List LockAction :=
  if addrs.isEmpty then []
  else .acquireWrite :: (removeLoop m addrs).1 ++ [.releaseWrite]

/-- Is the registry write lock held just before position `i` of the
trace? -/
def lockHeldBefore (tr : List LockAction) (i : Nat) : Bool :=
  (tr.take i).count .acquireWrite > (tr.take i).count .releaseWrite

/-- Embedding of `ServerError` (only the variants the claims mention). -/
inductive ServerError where
  | addressAlreadyInUse (a : Nat)
  | clientsReadError
  | otherError
deriving DecidableEq, Repr

/-- Embedding of `ClientsHandler::handle_new_client` on the session map,
modelled as an association list from addresses to sessions (`σ`).
`newSession` is the outcome of `SingleClientHandler::new` (which can fail).
Returns the call's result together with the map afterwards.  `entry`
semantics: an occupied entry fails with `AddressAlreadyInUse`, a vacant one
inserts the freshly built session. -/
def handleNewClient {σ : Type} (m : List (Nat × σ)) (address : Nat)
    (newSession : Res ServerError σ) : Res ServerError Unit × List (Nat × σ) :=
  match m.lookup address with
  | some _ => (.err (.addressAlreadyInUse address), m)
  | none =>
    match newSession with
    | .ok s => (.ok (), m ++ [(address, s)])
    | .err e => (.err e, m)

/-! ## Helper lemmas -/

theorem beBytesToNat_u64be (n : Nat) (h : n < 2 ^ 64) : beBytesToNat (u64be n) = n := by
  simp [beBytesToNat, u64be, List.foldl]; omega

theorem beBytesToNat_u32be (n : Nat) (h : n < 2 ^ 32) : beBytesToNat (u32be n) = n := by
  simp [beBytesToNat, u32be, List.foldl]; omega

theorem length_u64be (n : Nat) : (u64be n).length = 8 := rfl

theorem length_u32be (n : Nat) : (u32be n).length = 4 := rfl

theorem u64be_ne_nil (n : Nat) : u64be n ≠ [] := by simp [u64be]

theorem u32be_ne_nil (n : Nat) : u32be n ≠ [] := by simp [u32be]

theorem quote_toBytes_eq_intercalate (q : Quote) :
    q.toBytes =
      [splitterByte].intercalate [q.ticker, u64be q.price, u32be q.volume, u64be q.timestamp] := by
  simp [Quote.toBytes, List.intercalate]

theorem modifyHead_append_of_ne_nil {α : Type} (f : List α → List α)
    (l l2 : List (List α)) (h : l ≠ []) :
    List.modifyHead f (l ++ l2) = List.modifyHead f l ++ l2 := by
  cases l with
  | nil => simp at h
  | cons a as => simp

theorem splitOn_cons_self (v : List Nat) :
    (splitterByte :: v).splitOn splitterByte = [] :: v.splitOn splitterByte := by
  simp [List.splitOn, List.splitOnP_cons]

theorem splitOn_append_self (v : List Nat) :
    (v ++ [splitterByte]).splitOn splitterByte = v.splitOn splitterByte ++ [[]] := by
  induction v with
  | nil => simp [List.splitOn, List.splitOnP_cons]
  | cons b bs ih =>
    simp only [List.splitOn, List.splitOnP_cons, List.cons_append] at ih ⊢
    by_cases hb : b = splitterByte
    · simp [hb, ih]
    · have hbeq : (b == splitterByte) = false := by simp [hb]
      simp only [hbeq, Bool.false_eq_true, if_false, ih]
      exact modifyHead_append_of_ne_nil _ _ _ (List.splitOnP_ne_nil _ _)

/-! ## C1: Quote binary round-trip -/

/-- C1 (amended): for a valid quote whose price, volume and timestamp
big-endian byte representations contain no `b'|'` byte, decoding the
encoding succeeds and returns the quote bit-exactly. -/
theorem C1_quote_binary_roundtrip (q : Quote) (hq : q.valid)
    (hp : splitterByte ∉ u64be q.price) (hv : splitterByte ∉ u32be q.volume)
    (hts : splitterByte ∉ u64be q.timestamp) :
    Quote.tryFrom q.toBytes = .ok q := by
  obtain ⟨ht0, ht124, _, hp64, hv32, hts64⟩ := hq
  unfold Quote.tryFrom
  have hmem : ∀ l ∈ [q.ticker, u64be q.price, u32be q.volume, u64be q.timestamp],
      splitterByte ∉ l := by
    intro l hl
    simp only [List.mem_cons, List.not_mem_nil, or_false] at hl
    rcases hl with rfl | rfl | rfl | rfl
    · exact ht124
    · exact hp
    · exact hv
    · exact hts
  rw [quote_toBytes_eq_intercalate, List.splitOn_intercalate _ _ hmem (by simp)]
  have hfeq : List.filter (fun part => !part.isEmpty)
      [q.ticker, u64be q.price, u32be q.volume, u64be q.timestamp] =
      [q.ticker, u64be q.price, u32be q.volume, u64be q.timestamp] :=
    List.filter_eq_self.mpr (by
      intro a ha
      simp only [List.mem_cons, List.not_mem_nil, or_false] at ha
      rcases ha with rfl | rfl | rfl | rfl <;>
        simp [ht0, u64be, u32be])
  rw [hfeq]
  have hcond : 1 ≤ q.ticker.length ∧ (u64be q.price).length = 8 ∧
      (u32be q.volume).length = 4 ∧ (u64be q.timestamp).length = 8 := by
    exact ⟨List.length_pos.mpr ht0, rfl, rfl, rfl⟩
  show (if 1 ≤ q.ticker.length ∧ (u64be q.price).length = 8 ∧
      (u32be q.volume).length = 4 ∧ (u64be q.timestamp).length = 8 then
      (Res.ok ⟨q.ticker, beBytesToNat (u64be q.price), beBytesToNat (u32be q.volume),
        beBytesToNat (u64be q.timestamp)⟩ : Res QuotesError Quote)
    else .err .parseQuoteError) = .ok q
  rw [if_pos hcond, beBytesToNat_u64be _ hp64, beBytesToNat_u32be _ hv32,
    beBytesToNat_u64be _ hts64]

/-- C1 counterexample: the claim as stated is false — the valid quote with
ticker `"A"` and price bit pattern `124` (so a `b'|'` byte inside the price
field) fails to decode from its own encoding. -/
theorem C1_counterexample :
    Quote.valid ⟨[65], 124, 0, 0⟩ ∧
      Quote.tryFrom (Quote.toBytes ⟨[65], 124, 0, 0⟩) ≠ .ok ⟨[65], 124, 0, 0⟩ := by
  decide

/-- C1 witness for the amended round-trip theorem. -/
theorem C1_witness :
    Quote.tryFrom (Quote.toBytes ⟨[65, 66], 3, 5, 7⟩) = .ok ⟨[65, 66], 3, 5, 7⟩ :=
  C1_quote_binary_roundtrip ⟨[65, 66], 3, 5, 7⟩ (by decide) (by decide) (by decide)
    (by decide)

/-! ## C8: Quote payload field validation -/

/-- C8 (amended): `Quote::try_from` discards empty fields instead of
rejecting them — a leading or trailing splitter byte never changes the
result — and it rejects every payload whose remaining non-empty fields do
not number four with widths at least 1, 8, 4, 8.  (This is the rejection
direction only: the source has one further rejection path, the
`String::from_utf8` validation of the ticker bytes, which the byte-level
model does not separate; acceptance is therefore not characterized
here.) -/
theorem C8_empty_fields_filtered :
    (∀ v, Quote.tryFrom (splitterByte :: v) = Quote.tryFrom v) ∧
    (∀ v, Quote.tryFrom (v ++ [splitterByte]) = Quote.tryFrom v) ∧
    (∀ v, ((v.splitOn splitterByte).filter (fun part => !part.isEmpty)).length ≠ 4 →
      Quote.tryFrom v = .err .parseQuoteError) ∧
    (∀ v t p w s,
      (v.splitOn splitterByte).filter (fun part => !part.isEmpty) = [t, p, w, s] →
      ¬(1 ≤ t.length ∧ p.length = 8 ∧ w.length = 4 ∧ s.length = 8) →
      Quote.tryFrom v = .err .parseQuoteError) := by
  refine ⟨?_, ?_, ?_, ?_⟩
  · intro v
    unfold Quote.tryFrom
    rw [splitOn_cons_self]
    simp [List.filter_cons]
  · intro v
    unfold Quote.tryFrom
    rw [splitOn_append_self]
    simp [List.filter_append]
  · intro v hlen
    unfold Quote.tryFrom
    rcases hps : (v.splitOn splitterByte).filter (fun part => !part.isEmpty)
      with _ | ⟨t, _ | ⟨p, _ | ⟨w, _ | ⟨s, _ | ⟨x, xs⟩⟩⟩⟩⟩ <;> rw [hps] <;>
      first
        | rfl
        | (rw [hps] at hlen; simp at hlen)
  · intro v t p w s h hbad
    unfold Quote.tryFrom
    rw [h]
    simp only [if_neg hbad]

/-- C8 counterexample: the claim as stated is false — a payload with a
doubled splitter (hence an empty field) parses successfully. -/
theorem C8_counterexample :
    ([] ∈ ([65] ++ [splitterByte, splitterByte] ++ u64be 0 ++ [splitterByte] ++
        u32be 5 ++ [splitterByte] ++ u64be 7).splitOn splitterByte) ∧
      Quote.tryFrom ([65] ++ [splitterByte, splitterByte] ++ u64be 0 ++ [splitterByte] ++
        u32be 5 ++ [splitterByte] ++ u64be 7) = .ok ⟨[65], 0, 5, 7⟩ := by
  decide

/-- C8 witness: the amended rejection criterion applied to a payload whose
fields are too narrow. -/
theorem C8_witness : Quote.tryFrom [65, splitterByte, 66] = .err .parseQuoteError :=
  C8_empty_fields_filtered.2.2.1 [65, splitterByte, 66] (by decide)

/-! ## Datagram lemmas and claims C2, C3, C10 -/


theorem parseLoop_eq_notEnough {buf : List Nat} (h : parseResultFrom buf = .notEnoughBytes) :
    parseLoop buf = (.ok [], buf) := by
  rw [parseLoop.eq_def]
  split <;> simp_all

theorem parseLoop_eq_err {buf : List Nat} (h : parseResultFrom buf = .error) :
    parseLoop buf = (.err .parseDatagramError, buf) := by
  rw [parseLoop.eq_def]
  split <;> simp_all

theorem parseLoop_eq_datagram {buf d : List Nat} (h : parseResultFrom buf = .datagram d) :
    parseLoop buf =
      (if (buf.drop (6 + d.length)).isEmpty then
        ((.ok [d] : Res QuotesError (List (List Nat))), buf.drop (6 + d.length))
       else match parseLoop (buf.drop (6 + d.length)) with
            | (.ok ds, r) => (.ok (d :: ds), r)
            | (.err e, r) => (.err e, r)) := by
  rw [parseLoop.eq_def]
  split
  next d' heq => rw [h] at heq; injection heq with hd; subst hd; rfl
  next heq => rw [h] at heq; cases heq
  next heq => rw [h] at heq; cases heq

theorem length_datagramBytes (d : List Nat) : (datagramBytes d).length = 6 + d.length := by
  simp [datagramBytes, dgHeader, u16be]; omega

theorem datagramBytes_cons_form (d : List Nat) (hlen : d.length ≤ 65535) :
    datagramBytes d = 81 :: 68 :: 84 :: 71 :: (d.length / 256) :: (d.length % 256) :: d := by
  have hmod : d.length % 65536 = d.length := Nat.mod_eq_of_lt (by omega)
  simp [datagramBytes, dgHeader, u16be, hmod]

theorem append_split {α : Type} {t u A w : List α} (h : t ++ u = A ++ w)
    (hle : A.length ≤ t.length) : ∃ t', t = A ++ t' ∧ t' ++ u = w := by
  have hA : A <+: t := by
    have h1 : A <+: t ++ u := ⟨w, h.symm⟩
    have h2 : t <+: t ++ u := List.prefix_append t u
    exact List.prefix_of_prefix_length_le h1 h2 hle
  obtain ⟨t', rfl⟩ := hA
  rw [List.append_assoc] at h
  exact ⟨t', rfl, List.append_cancel_left h⟩

theorem beBytesToNat_pair (x y : Nat) : beBytesToNat [x, y] = x * 256 + y := by
  simp [beBytesToNat, List.foldl]

theorem parseResultFrom_frame (d t' : List Nat) (hlen : d.length ≤ 65535) :
    parseResultFrom (datagramBytes d ++ t') = .datagram d := by
  rw [datagramBytes_cons_form d hlen]
  have e2 : List.take 2 (List.drop 4
      (81 :: 68 :: 84 :: 71 :: (d.length / 256) :: (d.length % 256) :: (d ++ t'))) =
      [d.length / 256, d.length % 256] := rfl
  unfold parseResultFrom
  simp only [List.cons_append]
  rw [e2, beBytesToNat_pair]
  have hbe : d.length / 256 * 256 + d.length % 256 = d.length := by omega
  rw [hbe]
  have c1 : ¬ ((81 :: 68 :: 84 :: 71 :: (d.length / 256) :: (d.length % 256) :: (d ++ t')).length < 6) := by
    simp
  have c2 : ¬ (List.take 4 (81 :: 68 :: 84 :: 71 :: (d.length / 256) :: (d.length % 256) :: (d ++ t')) ≠ dgHeader) := by
    intro hx; exact hx rfl
  have c3 : ¬ ((81 :: 68 :: 84 :: 71 :: (d.length / 256) :: (d.length % 256) :: (d ++ t')).length < d.length + 6) := by
    simp only [List.length_cons, List.length_append]; omega
  rw [if_neg c1, if_neg c2, if_neg c3]
  have c4 : List.drop 6 (81 :: 68 :: 84 :: 71 :: (d.length / 256) :: (d.length % 256) :: (d ++ t')) = d ++ t' := rfl
  rw [c4, List.take_left]

theorem parseResultFrom_partial {t u d w : List Nat} (hlen : d.length ≤ 65535)
    (heq : t ++ u = datagramBytes d ++ w) (hsh : t.length < 6 + d.length) :
    parseResultFrom t = .notEnoughBytes := by
  by_cases h6 : t.length < 6
  · unfold parseResultFrom
    rw [if_pos h6]
  · push_neg at h6
    rw [datagramBytes_cons_form d hlen] at heq
    have heq' : t ++ u = [81, 68, 84, 71, d.length / 256, d.length % 256] ++ (d ++ w) := by
      simpa using heq
    obtain ⟨t2, rfl, _⟩ := append_split heq' (by simpa using h6)
    have e2 : List.take 2 (List.drop 4
        ([81, 68, 84, 71, d.length / 256, d.length % 256] ++ t2)) =
        [d.length / 256, d.length % 256] := rfl
    unfold parseResultFrom
    rw [e2, beBytesToNat_pair]
    have hbe : d.length / 256 * 256 + d.length % 256 = d.length := by omega
    rw [hbe]
    have c1 : ¬ (([81, 68, 84, 71, d.length / 256, d.length % 256] ++ t2).length < 6) := by
      simp
    have c2 : ¬ (List.take 4 ([81, 68, 84, 71, d.length / 256, d.length % 256] ++ t2) ≠ dgHeader) := by
      intro hx; exact hx rfl
    have c3 : ([81, 68, 84, 71, d.length / 256, d.length % 256] ++ t2).length < d.length + 6 := by
      simp only [List.length_cons, List.length_append, List.length_nil] at hsh ⊢
      omega
    rw [if_neg c1, if_neg c2, if_pos c3]

theorem dgStream_nil : dgStream [] = [] := rfl

theorem dgStream_cons (d : List Nat) (ds : List (List Nat)) :
    dgStream (d :: ds) = datagramBytes d ++ dgStream ds := by
  simp [dgStream]

theorem dgStream_eq_nil {ds : List (List Nat)} (h : dgStream ds = []) : ds = [] := by
  cases ds with
  | nil => rfl
  | cons d rest =>
    rw [dgStream_cons] at h
    have h1 := List.append_eq_nil.mp h
    have h2 := length_datagramBytes d
    rw [h1.1] at h2
    simp at h2
    exact absurd h2 (by omega)

theorem parseLoop_stream_pfx : ∀ (ds : List (List Nat)) (t u : List Nat),
    (∀ d ∈ ds, d.length ≤ 65535) → t ++ u = dgStream ds →
    ∃ ds1 ds2 r, ds = ds1 ++ ds2 ∧ t = dgStream ds1 ++ r ∧
      parseLoop t = (.ok ds1, r) ∧ r ++ u = dgStream ds2 ∧
      (∀ d dsx, ds2 = d :: dsx → r.length < 6 + d.length) := by
  intro ds
  induction ds with
  | nil =>
    intro t u hb ht
    rw [dgStream_nil] at ht
    obtain ⟨rfl, rfl⟩ := List.append_eq_nil.mp ht
    exact ⟨[], [], [], rfl, by simp [dgStream_nil], parseLoop_eq_notEnough rfl,
      by simp [dgStream_nil], by simp⟩
  | cons d rest ih =>
    intro t u hb ht
    rw [dgStream_cons] at ht
    have hdlen : d.length ≤ 65535 := hb d (List.mem_cons_self d rest)
    by_cases hcase : t.length < 6 + d.length
    · have hne := parseResultFrom_partial hdlen ht hcase
      refine ⟨[], d :: rest, t, rfl, by simp [dgStream_nil],
        parseLoop_eq_notEnough hne, by rw [dgStream_cons]; exact ht, ?_⟩
      intro d0 dsx hx
      injection hx with h1 h2
      subst h1
      exact hcase
    · push_neg at hcase
      have hle : (datagramBytes d).length ≤ t.length := by
        rw [length_datagramBytes]; omega
      obtain ⟨t2, rfl, ht2⟩ := append_split ht hle
      have hframe := parseResultFrom_frame d t2 hdlen
      have hdrop : (datagramBytes d ++ t2).drop (6 + d.length) = t2 := by
        have hl : 6 + d.length = (datagramBytes d).length := (length_datagramBytes d).symm
        rw [hl, List.drop_left]
      obtain ⟨ds1', ds2', r, hds, hteq, hloop, hru, hlast⟩ :=
        ih t2 u (fun x hx => hb x (List.mem_cons_of_mem _ hx)) ht2
      rw [parseLoop_eq_datagram hframe, hdrop]
      by_cases hemp : t2.isEmpty
      · have ht2nil : t2 = [] := by simpa [List.isEmpty_iff] using hemp
        subst ht2nil
        have h1 : dgStream ds1' = [] ∧ r = [] := List.append_eq_nil.mp hteq.symm
        have hds1 : ds1' = [] := dgStream_eq_nil h1.1
        subst hds1
        refine ⟨[d], ds2', [], ?_, ?_, ?_, ?_, ?_⟩
        · simpa using hds
        · simp [dgStream_cons, dgStream_nil]
        · rw [if_pos hemp]
        · rw [h1.2] at hru
          simpa using hru
        · intro d0 dsx hx; simp
      · rw [if_neg hemp, hloop]
        refine ⟨d :: ds1', ds2', r, ?_, ?_, rfl, hru, hlast⟩
        · rw [hds]; rfl
        · rw [hteq, dgStream_cons, List.append_assoc]

theorem parseLoop_full (ds : List (List Nat)) (hb : ∀ d ∈ ds, d.length ≤ 65535) :
    parseLoop (dgStream ds) = (.ok ds, []) := by
  obtain ⟨ds1, ds2, r, hds, hteq, hloop, hru, hlast⟩ :=
    parseLoop_stream_pfx ds (dgStream ds) [] hb (by simp)
  rw [List.append_nil] at hru
  cases ds2 with
  | nil =>
    rw [dgStream_nil] at hru
    subst hru
    rw [List.append_nil] at hds
    rw [← hds] at hloop
    exact hloop
  | cons d0 dsx =>
    exfalso
    have hl1 := hlast d0 dsx rfl
    have hl2 : r.length = (dgStream (d0 :: dsx)).length := by rw [hru]
    rw [dgStream_cons, List.length_append, length_datagramBytes] at hl2
    omega

theorem feedChunks_stream : ∀ (chunks : List (List Nat)) (buf : List Nat)
    (ds : List (List Nat)),
    (∀ d ∈ ds, d.length ≤ 65535) →
    buf ++ chunks.flatten = dgStream ds →
    (∀ d dsx, ds = d :: dsx → buf.length < 6 + d.length) →
    feedChunks ⟨buf⟩ chunks = (.ok ds, ⟨[]⟩) := by
  intro chunks
  induction chunks with
  | nil =>
    intro buf ds hb hflat hshort
    rw [List.flatten_nil, List.append_nil] at hflat
    cases ds with
    | nil =>
      rw [dgStream_nil] at hflat
      subst hflat
      rfl
    | cons d dsx =>
      exfalso
      have hs1 := hshort d dsx rfl
      have hs2 : buf.length = (dgStream (d :: dsx)).length := by rw [hflat]
      rw [dgStream_cons, List.length_append, length_datagramBytes] at hs2
      omega
  | cons c cs ih =>
    intro buf ds hb hflat hshort
    rw [List.flatten_cons] at hflat
    have hflat' : (buf ++ c) ++ cs.flatten = dgStream ds := by
      rw [List.append_assoc]; exact hflat
    obtain ⟨ds1, ds2, r, hds, hteq, hloop, hru, hlast⟩ :=
      parseLoop_stream_pfx ds (buf ++ c) cs.flatten hb hflat'
    have hsub : ∀ d ∈ ds2, d.length ≤ 65535 := by
      intro x hx
      exact hb x (by rw [hds]; exact List.mem_append_right _ hx)
    have hrec := ih r ds2 hsub hru hlast
    show feedChunks ⟨buf⟩ (c :: cs) = (.ok ds, ⟨[]⟩)
    unfold feedChunks DatagramParser.parse
    rw [show (⟨buf⟩ : DatagramParser).buffer = buf from rfl, hloop]
    simp only [hrec, hds]

theorem parseResultFrom_datagram_inv {buf d : List Nat}
    (h : parseResultFrom buf = .datagram d) :
    6 ≤ buf.length ∧ d = (buf.drop 6).take (beBytesToNat ((buf.drop 4).take 2)) := by
  unfold parseResultFrom at h
  by_cases h1 : buf.length < 6
  · rw [if_pos h1] at h; cases h
  · rw [if_neg h1] at h
    by_cases h2 : buf.take 4 ≠ dgHeader
    · rw [if_pos h2] at h; cases h
    · rw [if_neg h2] at h
      by_cases h3 : buf.length < beBytesToNat ((buf.drop 4).take 2) + 6
      · rw [if_pos h3] at h; cases h
      · rw [if_neg h3] at h
        injection h with hx
        exact ⟨by omega, hx.symm⟩

theorem parseResultFrom_datagram_bound {buf d : List Nat} (hb : ∀ b ∈ buf, b < 256)
    (h : parseResultFrom buf = .datagram d) : d.length ≤ 65535 := by
  obtain ⟨h6, hd⟩ := parseResultFrom_datagram_inv h
  have hlen2 : ((buf.drop 4).take 2).length = 2 := by
    simp [List.length_take, List.length_drop]
    omega
  obtain ⟨x, y, hxy⟩ : ∃ x y, (buf.drop 4).take 2 = [x, y] := by
    rcases h22 : (buf.drop 4).take 2 with _ | ⟨x, _ | ⟨y, _ | _⟩⟩ <;>
      rw [h22] at hlen2 <;> first
        | (exact ⟨x, y, rfl⟩)
        | simp at hlen2
  have hx : x < 256 := hb x (List.mem_of_mem_drop (List.mem_of_mem_take (by rw [hxy]; simp)))
  have hy : y < 256 := hb y (List.mem_of_mem_drop (List.mem_of_mem_take (by rw [hxy]; simp)))
  rw [hxy] at hd
  have hdl : d.length ≤ beBytesToNat [x, y] := by
    rw [hd, List.length_take]
    omega
  rw [beBytesToNat_pair] at hdl
  omega

theorem parseLoop_payload_bound : ∀ (n : Nat) (buf : List Nat), buf.length ≤ n →
    (∀ b ∈ buf, b < 256) → ∀ ds r, parseLoop buf = (.ok ds, r) →
    ∀ d ∈ ds, d.length ≤ 65535 := by
  intro n
  induction n with
  | zero =>
    intro buf hlen hb ds r hpl d hd
    have hnil : buf = [] := List.length_eq_zero.mp (by omega)
    subst hnil
    rw [parseLoop_eq_notEnough (show parseResultFrom [] = .notEnoughBytes from rfl)] at hpl
    rw [Prod.mk.injEq] at hpl
    injection hpl.1 with h1
    rw [← h1] at hd
    cases hd
  | succ n ih =>
    intro buf hlen hb ds r hpl d hd
    cases hres : parseResultFrom buf with
    | notEnoughBytes =>
      rw [parseLoop_eq_notEnough hres] at hpl
      rw [Prod.mk.injEq] at hpl
      injection hpl.1 with h1
      rw [← h1] at hd
      cases hd
    | error =>
      rw [parseLoop_eq_err hres] at hpl
      rw [Prod.mk.injEq] at hpl
      cases hpl.1
    | datagram d0 =>
      have hd0 : d0.length ≤ 65535 := parseResultFrom_datagram_bound hb hres
      have h6 : 6 ≤ buf.length := (parseResultFrom_datagram_inv hres).1
      rw [parseLoop_eq_datagram hres] at hpl
      by_cases hemp : (buf.drop (6 + d0.length)).isEmpty
      · rw [if_pos hemp] at hpl
        rw [Prod.mk.injEq] at hpl
        injection hpl.1 with h1
        rw [← h1] at hd
        simp at hd
        subst hd
        exact hd0
      · rw [if_neg hemp] at hpl
        rcases hrec : parseLoop (buf.drop (6 + d0.length)) with ⟨res2, r2⟩
        rw [hrec] at hpl
        cases res2 with
        | err e =>
          rw [Prod.mk.injEq] at hpl
          cases hpl.1
        | ok ds2 =>
          rw [Prod.mk.injEq] at hpl
          injection hpl.1 with h1
          rw [← h1] at hd
          rcases List.mem_cons.mp hd with rfl | hmem
          · exact hd0
          · refine ih (buf.drop (6 + d0.length)) ?_ ?_ ds2 r2 hrec d hmem
            · rw [List.length_drop]; omega
            · intro b hbmem; exact hb b (List.mem_of_mem_drop hbmem)

theorem datagramBytes_bytes_lt {v : List Nat} (hb : ∀ b ∈ v, b < 256) :
    ∀ b ∈ datagramBytes v, b < 256 := by
  intro b hbm
  simp [datagramBytes, dgHeader, u16be] at hbm
  rcases hbm with rfl | rfl | rfl | rfl | rfl | rfl | hm
  · omega
  · omega
  · omega
  · omega
  · have : v.length % 65536 < 65536 := Nat.mod_lt _ (by omega)
    omega
  · omega
  · exact hb b hm

/-- C2: Datagram round-trip — encoding any payload of at most 65535 bytes
and feeding it to a fresh `DatagramParser::parse` yields `Ok` with exactly
that one payload, and leaves the parser's buffer empty. -/
theorem C2_datagram_roundtrip (v : List Nat) (h : v.length ≤ 65535) :
    DatagramParser.new.parse (datagramBytes v) = (.ok [v], ⟨[]⟩) := by
  have hfull := parseLoop_full [v] (by intro d hd; simp at hd; subst hd; exact h)
  have hs : dgStream [v] = datagramBytes v := by simp [dgStream]
  rw [hs] at hfull
  unfold DatagramParser.parse DatagramParser.new
  rw [show (⟨[]⟩ : DatagramParser).buffer = [] from rfl, List.nil_append, hfull]

theorem C2_witness :
    DatagramParser.new.parse (datagramBytes [1, 2, 3]) = (.ok [[1, 2, 3]], ⟨[]⟩) :=
  C2_datagram_roundtrip [1, 2, 3] (by decide)

/-- C3: parser resilience to arbitrary chunking — for any split of
`encode(d1) ++ encode(d2)` into chunks, feeding the chunks in order to a
single `DatagramParser` returns exactly `[d1, d2]` across all calls with no
error, and the buffer ends empty. -/
theorem C3_chunked_parsing (d1 d2 : List Nat) (chunks : List (List Nat))
    (h1 : d1.length ≤ 65535) (h2 : d2.length ≤ 65535)
    (hc : chunks.flatten = datagramBytes d1 ++ datagramBytes d2) :
    feedChunks DatagramParser.new chunks = (.ok [d1, d2], DatagramParser.new) := by
  have h := feedChunks_stream chunks [] [d1, d2] ?_ ?_ ?_
  · exact h
  · intro d hd
    simp at hd
    rcases hd with rfl | rfl
    · exact h1
    · exact h2
  · rw [List.nil_append, hc]
    simp [dgStream]
  · intro d dsx hx
    simp

theorem C3_witness :
    feedChunks DatagramParser.new
      [(datagramBytes [1] ++ datagramBytes [2, 3]).take 5,
       (datagramBytes [1] ++ datagramBytes [2, 3]).drop 5] =
      (.ok [[1], [2, 3]], DatagramParser.new) :=
  C3_chunked_parsing [1] [2, 3] _ (by decide) (by decide) (by simp)

/-- C10: oversized payload encoding wraps — for a payload longer than
65535 bytes the encoder writes the length field as the length modulo
`2 ^ 16` while appending the whole payload, so the prefix no longer
describes the payload and parsing the encoding never returns the single
datagram `[v]`. -/
theorem C10_oversized_length_wraps (v : List Nat) (hb : ∀ b ∈ v, b < 256)
    (hlen : 65535 < v.length) :
    datagramBytes v = dgHeader ++ u16be (v.length % 65536) ++ v ∧
    v.length % 65536 ≠ v.length ∧
    (∀ ds p, DatagramParser.new.parse (datagramBytes v) = (.ok ds, p) → ds ≠ [v]) := by
  refine ⟨rfl, by omega, ?_⟩
  intro ds p hp hcontra
  subst hcontra
  unfold DatagramParser.parse DatagramParser.new at hp
  rw [show (⟨[]⟩ : DatagramParser).buffer = [] from rfl, List.nil_append] at hp
  rcases hpl : parseLoop (datagramBytes v) with ⟨res, rest⟩
  rw [hpl] at hp
  rw [Prod.mk.injEq] at hp
  have hres : parseLoop (datagramBytes v) = (.ok [v], rest) := by
    rw [hpl, hp.1]
  have hvb := parseLoop_payload_bound (datagramBytes v).length (datagramBytes v) le_rfl
    (datagramBytes_bytes_lt hb) [v] rest hres v (by simp)
  omega

theorem C10_witness :
    (∀ b ∈ List.replicate 70000 (0 : Nat), b < 256) ∧
      65535 < (List.replicate 70000 (0 : Nat)).length ∧
      (datagramBytes (List.replicate 70000 (0 : Nat)) =
        dgHeader ++ u16be ((List.replicate 70000 (0 : Nat)).length % 65536) ++
          List.replicate 70000 (0 : Nat) ∧
      (List.replicate 70000 (0 : Nat)).length % 65536 ≠ (List.replicate 70000 (0 : Nat)).length ∧
      (∀ ds p,
        DatagramParser.new.parse (datagramBytes (List.replicate 70000 (0 : Nat))) = (.ok ds, p) →
        ds ≠ [List.replicate 70000 (0 : Nat)])) := by
  have hb : ∀ b ∈ List.replicate 70000 (0 : Nat), b < 256 := by
    intro b hbm
    rw [List.eq_of_mem_replicate hbm]
    omega
  have hlen : 65535 < (List.replicate 70000 (0 : Nat)).length := by
    rw [List.length_replicate]
    omega
  exact ⟨hb, hlen, C10_oversized_length_wraps _ hb hlen⟩

/-! ## SubscribeMessage, client and server lemmas and claims C4, C5, C6, C7, C9 -/


theorem toDecAux_zero (f : Nat) : toDecAux f 0 = [] := by
  cases f <;> rfl

theorem toDecAux_fuel : ∀ (f1 f2 n : Nat), n ≤ f1 → n ≤ f2 → toDecAux f1 n = toDecAux f2 n := by
  intro f1
  induction f1 with
  | zero =>
    intro f2 n h1 h2
    have : n = 0 := by omega
    subst this
    rw [toDecAux_zero, toDecAux_zero]
  | succ f1' ih =>
    intro f2 n h1 h2
    cases n with
    | zero => rw [toDecAux_zero, toDecAux_zero]
    | succ m =>
      cases f2 with
      | zero => omega
      | succ f2' =>
        show toDecAux f1' ((m + 1) / 10) ++ [(m + 1) % 10 + 48] =
          toDecAux f2' ((m + 1) / 10) ++ [(m + 1) % 10 + 48]
        rw [ih f2' ((m + 1) / 10) (by omega) (by omega)]

theorem toDecAux_digits : ∀ (f n : Nat), ∀ c ∈ toDecAux f n, 48 ≤ c ∧ c ≤ 57 := by
  intro f
  induction f with
  | zero => intro n c hc; cases hc
  | succ f' ih =>
    intro n c hc
    cases n with
    | zero => cases hc
    | succ m =>
      rw [show toDecAux (f' + 1) (m + 1) =
        toDecAux f' ((m + 1) / 10) ++ [(m + 1) % 10 + 48] from rfl] at hc
      rcases List.mem_append.mp hc with hm | hm
      · exact ih _ c hm
      · simp at hm
        have : (m + 1) % 10 < 10 := Nat.mod_lt _ (by omega)
        omega

theorem natToDec_digits (n : Nat) : ∀ c ∈ natToDec n, 48 ≤ c ∧ c ≤ 57 := by
  unfold natToDec
  split_ifs
  · intro c hc; simp at hc; omega
  · exact toDecAux_digits _ _

theorem decValue_append_one (l : List Nat) (c : Nat) :
    decValue (l ++ [c]) = decValue l * 10 + (c - 48) := by
  simp [decValue, List.foldl_append]

theorem decValue_toDecAux : ∀ (f n : Nat), n ≤ f → decValue (toDecAux f n) = n := by
  intro f
  induction f with
  | zero =>
    intro n h
    have : n = 0 := by omega
    subst this
    rfl
  | succ f' ih =>
    intro n h
    cases n with
    | zero => rw [toDecAux_zero]; rfl
    | succ m =>
      rw [show toDecAux (f' + 1) (m + 1) =
        toDecAux f' ((m + 1) / 10) ++ [(m + 1) % 10 + 48] from rfl,
        decValue_append_one, ih ((m + 1) / 10) (by omega)]
      omega

theorem decValue_natToDec (n : Nat) : decValue (natToDec n) = n := by
  unfold natToDec
  split_ifs with h
  · subst h; rfl
  · exact decValue_toDecAux _ _ (by omega)

theorem toDecAux_ne_nil : ∀ (f n : Nat), n ≤ f → 1 ≤ n → toDecAux f n ≠ [] := by
  intro f n h1 h2
  cases f with
  | zero => omega
  | succ f' =>
    cases n with
    | zero => omega
    | succ m =>
      show toDecAux f' ((m + 1) / 10) ++ [(m + 1) % 10 + 48] ≠ []
      simp

theorem natToDec_ne_nil (n : Nat) : natToDec n ≠ [] := by
  unfold natToDec
  split_ifs with h
  · simp
  · exact toDecAux_ne_nil _ _ (by omega) (by omega)

theorem toDecAux_head : ∀ (f n : Nat), n ≤ f → 1 ≤ n →
    ∃ c, (toDecAux f n).head? = some c ∧ 49 ≤ c ∧ c ≤ 57 := by
  intro f
  induction f with
  | zero => intro n h1 h2; omega
  | succ f' ih =>
    intro n h1 h2
    cases n with
    | zero => omega
    | succ m =>
      rw [show toDecAux (f' + 1) (m + 1) =
        toDecAux f' ((m + 1) / 10) ++ [(m + 1) % 10 + 48] from rfl]
      by_cases hten : 10 ≤ m + 1
      · obtain ⟨c, hc1, hc2⟩ := ih ((m + 1) / 10) (by omega) (by omega)
        rcases hl : toDecAux f' ((m + 1) / 10) with _ | ⟨a, t⟩
        · exact absurd hl (toDecAux_ne_nil f' ((m + 1) / 10) (by omega) (by omega))
        · rw [hl] at hc1
          simp at hc1
          exact ⟨c, by simp [hc1], hc2⟩
      · have hdiv : (m + 1) / 10 = 0 := by omega
        rw [hdiv, toDecAux_zero, List.nil_append]
        refine ⟨(m + 1) % 10 + 48, rfl, ?_, ?_⟩ <;> omega

theorem natToDec_head_cond (n : Nat) :
    (natToDec n).length = 1 ∨ (natToDec n).head? ≠ some 48 := by
  by_cases h10 : n < 10
  · left
    unfold natToDec
    split_ifs with h
    · rfl
    · cases n with
      | zero => exact absurd rfl h
      | succ m =>
        show (toDecAux (m + 1) ((m + 1) / 10) ++ [(m + 1) % 10 + 48]).length = 1
        have hdiv : (m + 1) / 10 = 0 := by omega
        rw [hdiv, toDecAux_zero, List.nil_append]
        rfl
  · right
    unfold natToDec
    rw [if_neg (by omega)]
    obtain ⟨c, hc1, hc2⟩ := toDecAux_head (n + 1) n (by omega) (by omega)
    rw [hc1]
    intro hx
    injection hx with hx2
    omega

theorem parseDecBounded_natToDec (bound n : Nat) (h : n ≤ bound) :
    parseDecBounded bound (natToDec n) = some n := by
  unfold parseDecBounded
  rw [if_pos, decValue_natToDec]
  refine ⟨natToDec_ne_nil n, ?_, natToDec_head_cond n, by rw [decValue_natToDec]; exact h⟩
  intro c hc
  have := natToDec_digits n c hc
  simp [isDigitByte]
  omega

theorem intercalate_single {α : Type} (sep : α) (x : List α) :
    List.intercalate [sep] [x] = x := by
  simp [List.intercalate]

theorem intercalate_cons_cons {α : Type} (sep : α) (x y : List α) (zs : List (List α)) :
    List.intercalate [sep] (x :: y :: zs) = x ++ sep :: List.intercalate [sep] (y :: zs) := by
  simp [List.intercalate, List.intersperse_cons_cons]

theorem mem_intercalate_sep : ∀ (sep : Nat) (ls : List (List Nat)) (c : Nat),
    c ∈ List.intercalate [sep] ls → c = sep ∨ ∃ l ∈ ls, c ∈ l := by
  intro sep ls
  induction ls with
  | nil => intro c hc; simp [List.intercalate] at hc
  | cons x xs ih =>
    intro c hc
    cases xs with
    | nil =>
      rw [intercalate_single] at hc
      exact Or.inr ⟨x, by simp, hc⟩
    | cons y ys =>
      rw [intercalate_cons_cons] at hc
      rcases List.mem_append.mp hc with hm | hm
      · exact Or.inr ⟨x, by simp, hm⟩
      · rcases List.mem_cons.mp hm with rfl | hm2
        · exact Or.inl rfl
        · rcases ih c hm2 with h1 | ⟨l, hl1, hl2⟩
          · exact Or.inl h1
          · exact Or.inr ⟨l, by simp [hl1], hl2⟩

theorem sockAddrV4_toBytes_eq (s : SockAddrV4) :
    s.toBytes = List.intercalate [58]
      [List.intercalate [46] [natToDec s.a, natToDec s.b, natToDec s.c, natToDec s.d],
       natToDec s.port] := by
  simp [intercalate_cons_cons, intercalate_single, SockAddrV4.toBytes]

theorem subscribe_toBytes_eq (m : SubscribeMessage) :
    m.toBytes = List.intercalate [32]
      [subscribeHeader, m.address.toBytes, List.intercalate [44] m.tickers] := by
  simp [intercalate_cons_cons, intercalate_single, SubscribeMessage.toBytes]

theorem getLast?_mem_self : ∀ (l : List Nat) (c : Nat), l.getLast? = some c → c ∈ l := by
  intro l
  induction l with
  | nil => intro c hc; cases hc
  | cons a t ih =>
    intro c hc
    cases t with
    | nil =>
      simp at hc
      simp [hc]
    | cons b t2 =>
      rw [List.getLast?_cons_cons] at hc
      exact List.mem_cons_of_mem _ (ih c hc)

theorem trimBytes_eq_self {l : List Nat}
    (h1 : ∀ c, l.head? = some c → isWsByte c = false)
    (h2 : ∀ c, l.getLast? = some c → isWsByte c = false) : trimBytes l = l := by
  unfold trimBytes
  cases l with
  | nil => rfl
  | cons a t =>
    have ha : isWsByte a = false := h1 a rfl
    rw [List.dropWhile_cons, ha]
    simp only [Bool.false_eq_true, if_false]
    rcases hl : (a :: t).reverse with _ | ⟨b, rt⟩
    · simp at hl
    · have hb : (a :: t).getLast? = some b := by
        rw [← List.head?_reverse, hl]
        rfl
      have hbw : isWsByte b = false := h2 b hb
      rw [List.dropWhile_cons, hbw]
      simp only [Bool.false_eq_true, if_false]
      rw [← hl, List.reverse_reverse]

theorem natToDec_no_sep (n sep : Nat) (h1 : sep < 48 ∨ 57 < sep) : sep ∉ natToDec n := by
  intro hm
  have := natToDec_digits n sep hm
  omega

theorem parseSockAddrV4_toBytes (s : SockAddrV4) (h : s.valid) :
    parseSockAddrV4 s.toBytes = some s := by
  obtain ⟨ha, hb, hc, hd, hp⟩ := h
  rw [sockAddrV4_toBytes_eq]
  unfold parseSockAddrV4
  have hhost58 : ∀ l ∈ [List.intercalate [46] [natToDec s.a, natToDec s.b, natToDec s.c,
      natToDec s.d], natToDec s.port], (58 : Nat) ∉ l := by
    intro l hl
    simp only [List.mem_cons, List.not_mem_nil, or_false] at hl
    rcases hl with rfl | rfl
    · intro hm
      rcases mem_intercalate_sep 46 _ 58 hm with h1 | ⟨l2, hl2, hm2⟩
      · omega
      · simp only [List.mem_cons, List.not_mem_nil, or_false] at hl2
        rcases hl2 with rfl | rfl | rfl | rfl <;>
          exact natToDec_no_sep _ 58 (by omega) hm2
    · exact natToDec_no_sep _ 58 (by omega)
  rw [List.splitOn_intercalate _ 58 hhost58 (by simp)]
  have hdot : ∀ l ∈ [natToDec s.a, natToDec s.b, natToDec s.c, natToDec s.d],
      (46 : Nat) ∉ l := by
    intro l hl
    simp only [List.mem_cons, List.not_mem_nil, or_false] at hl
    rcases hl with rfl | rfl | rfl | rfl <;> exact natToDec_no_sep _ 46 (by omega)
  show (match List.splitOn 46 ([46].intercalate
      [natToDec s.a, natToDec s.b, natToDec s.c, natToDec s.d]) with
    | [x, y, z, w] =>
      match parseDecBounded 255 x, parseDecBounded 255 y, parseDecBounded 255 z,
          parseDecBounded 255 w, parseDecBounded 65535 (natToDec s.port) with
      | some av, some bv, some cv, some dv, some pv =>
        some (⟨av, bv, cv, dv, pv⟩ : SockAddrV4)
      | _, _, _, _, _ => none
    | _ => none) = some s
  rw [List.splitOn_intercalate _ 46 hdot (by simp)]
  show (match parseDecBounded 255 (natToDec s.a), parseDecBounded 255 (natToDec s.b),
      parseDecBounded 255 (natToDec s.c), parseDecBounded 255 (natToDec s.d),
      parseDecBounded 65535 (natToDec s.port) with
    | some av, some bv, some cv, some dv, some pv =>
      some (⟨av, bv, cv, dv, pv⟩ : SockAddrV4)
    | _, _, _, _, _ => none) = some s
  rw [parseDecBounded_natToDec 255 s.a ha, parseDecBounded_natToDec 255 s.b hb,
    parseDecBounded_natToDec 255 s.c hc, parseDecBounded_natToDec 255 s.d hd,
    parseDecBounded_natToDec 65535 s.port hp]

theorem mem_addr_toBytes {s : SockAddrV4} {c : Nat} (h : c ∈ s.toBytes) :
    (48 ≤ c ∧ c ≤ 57) ∨ c = 46 ∨ c = 58 := by
  rw [sockAddrV4_toBytes_eq] at h
  rcases mem_intercalate_sep 58 _ c h with rfl | ⟨l, hl1, hl2⟩
  · exact Or.inr (Or.inr rfl)
  · simp only [List.mem_cons, List.not_mem_nil, or_false] at hl1
    rcases hl1 with rfl | rfl
    · rcases mem_intercalate_sep 46 _ c hl2 with rfl | ⟨l2, hl3, hl4⟩
      · exact Or.inr (Or.inl rfl)
      · simp only [List.mem_cons, List.not_mem_nil, or_false] at hl3
        rcases hl3 with rfl | rfl | rfl | rfl <;> exact Or.inl (natToDec_digits _ c hl4)
    · exact Or.inl (natToDec_digits _ c hl2)

/-- C9 (amended): round-trip of the `SubscribeMessage` text format, for
messages with a valid address and a ticker list whose comma-join is
non-empty, whose tickers are ASCII and contain no whitespace and no
comma. -/
theorem C9_subscribe_roundtrip (m : SubscribeMessage) (hval : m.address.valid)
    (htick : ∀ t ∈ m.tickers, ∀ c ∈ t, c < 128 ∧ isWsByte c = false ∧ c ≠ 44)
    (hjoin : List.intercalate [44] m.tickers ≠ []) :
    SubscribeMessage.tryFrom m.toBytes = .ok m := by
  have hhead : ∀ c, m.toBytes.head? = some c → isWsByte c = false := by
    intro c hc
    have h83 : m.toBytes.head? = some 83 := rfl
    rw [h83] at hc
    injection hc with hc2
    subst hc2
    rfl
  have hlast : ∀ c, m.toBytes.getLast? = some c → isWsByte c = false := by
    intro c hc
    have hsplit : m.toBytes = (subscribeHeader ++ [32] ++ m.address.toBytes ++ [32]) ++
        List.intercalate [44] m.tickers := by
      simp [SubscribeMessage.toBytes, List.append_assoc]
    rw [hsplit, List.getLast?_append_of_ne_nil _ hjoin] at hc
    have hcmem := getLast?_mem_self _ c hc
    rcases mem_intercalate_sep 44 _ c hcmem with rfl | ⟨t, ht1, ht2⟩
    · rfl
    · exact (htick t ht1 c ht2).2.1
  have htrim := trimBytes_eq_self hhead hlast
  unfold SubscribeMessage.tryFrom
  rw [htrim, subscribe_toBytes_eq]
  have h32 : ∀ l ∈ [subscribeHeader, m.address.toBytes,
      List.intercalate [44] m.tickers], (32 : Nat) ∉ l := by
    intro l hl
    simp only [List.mem_cons, List.not_mem_nil, or_false] at hl
    rcases hl with rfl | rfl | rfl
    · decide
    · intro hm
      rcases mem_addr_toBytes hm with h1 | h1 | h1 <;> omega
    · intro hm
      rcases mem_intercalate_sep 44 _ 32 hm with h1 | ⟨t, ht1, ht2⟩
      · omega
      · have := (htick t ht1 32 ht2).2.1
        simp [isWsByte] at this
  rw [List.splitOn_intercalate _ 32 h32 (by simp)]
  show (if subscribeHeader = subscribeHeader then
      match parseSockAddrV4 m.address.toBytes with
      | some addr =>
        (Res.ok ⟨addr, (List.intercalate [44] m.tickers).splitOn 44⟩ :
          Res QuotesError SubscribeMessage)
      | none => .err .parseClientMessageError
    else .err .parseClientMessageError) = .ok m
  rw [if_pos rfl, parseSockAddrV4_toBytes m.address hval]
  show (Res.ok ⟨m.address, (List.intercalate [44] m.tickers).splitOn 44⟩ :
    Res QuotesError SubscribeMessage) = .ok m
  have htne : m.tickers ≠ [] := by
    intro hnil
    apply hjoin
    rw [hnil]
    rfl
  have h44 : ∀ t ∈ m.tickers, (44 : Nat) ∉ t := by
    intro t ht hm
    exact (htick t ht 44 hm).2.2 rfl
  rw [List.splitOn_intercalate _ 44 h44 htne]

/-- C9 counterexample: a message with the empty ticker list satisfies the
claim's hypotheses vacuously, yet its rendering does not parse back. -/
theorem C9_counterexample :
    (∀ t ∈ ([] : List (List Nat)), ∀ c ∈ t, c ≠ 32 ∧ c ≠ 44) ∧
      SubscribeMessage.tryFrom (SubscribeMessage.toBytes ⟨⟨127, 0, 0, 1, 8080⟩, []⟩) ≠
        .ok ⟨⟨127, 0, 0, 1, 8080⟩, []⟩ := by
  decide

/-- C9 witness: the amended round-trip theorem at a concrete message. -/
theorem C9_witness :
    SubscribeMessage.tryFrom
      (SubscribeMessage.toBytes ⟨⟨127, 0, 0, 1, 8080⟩, [[65], [66, 67]]⟩) =
      .ok ⟨⟨127, 0, 0, 1, 8080⟩, [[65], [66, 67]]⟩ :=
  C9_subscribe_roundtrip ⟨⟨127, 0, 0, 1, 8080⟩, [[65], [66, 67]]⟩ (by decide) (by decide)
    (by decide)

/-- C4 counterexample: the claim as stated is false — the bytes the client
writes during bootstrap do not end in a newline byte; in fact they contain
no `0x0A` at all. -/
theorem C4_counterexample :
    (requestDataBytes 4444 [[65, 66]]).getLast? ≠ some 10 ∧
      (10 : Nat) ∉ requestDataBytes 4444 [[65, 66]] := by
  decide

/-- C4 (amended): the client's bootstrap write is exactly the `Display`
rendering of the SUBSCRIBE message for `127.0.0.1:<port>` with NO newline
terminator, and (when no ticker contains `0x0A`) the written bytes contain
no newline byte at all — the message is delimited by closing the stream,
not by a line ending. -/
theorem C4_no_newline (p : Nat) (tickers : List (List Nat))
    (ht : ∀ t ∈ tickers, (10 : Nat) ∉ t) :
    requestDataBytes p tickers = SubscribeMessage.toBytes ⟨⟨127, 0, 0, 1, p⟩, tickers⟩ ∧
      (10 : Nat) ∉ requestDataBytes p tickers := by
  refine ⟨rfl, ?_⟩
  intro hm
  unfold requestDataBytes at hm
  rw [subscribe_toBytes_eq] at hm
  rcases mem_intercalate_sep 32 _ 10 hm with h1 | ⟨l, hl1, hl2⟩
  · omega
  · simp only [List.mem_cons, List.not_mem_nil, or_false] at hl1
    rcases hl1 with rfl | rfl | rfl
    · revert hl2; decide
    · rcases mem_addr_toBytes hl2 with h1 | h1 | h1 <;> omega
    · rcases mem_intercalate_sep 44 _ 10 hl2 with h1 | ⟨t, ht1, ht2⟩
      · omega
      · exact ht t ht1 ht2

/-- C5 counterexample: the claim as stated is false — with a failing first
send and a healthy event channel, the worker emits the error event but then
still processes the second `SendQuote` command instead of exiting. -/
theorem C5_counterexample :
    sendWorker [.sendQuote ⟨[65], 0, 0, 0⟩, .sendQuote ⟨[66], 1, 2, 3⟩] [false, true] true =
      ([.errorEvent], [⟨[65], 0, 0, 0⟩, ⟨[66], 1, 2, 3⟩]) ∧
    (sendWorker [.sendQuote ⟨[65], 0, 0, 0⟩, .sendQuote ⟨[66], 1, 2, 3⟩] [false, true] true).2 ≠
      [⟨[65], 0, 0, 0⟩] := by
  decide

/-- C5 (amended): on an I/O send failure the worker emits an
`Error(address, err)` event and CONTINUES processing; with a healthy event
channel it processes every command up to the first `Stop` (or channel end),
emitting one error event per failed send; it exits early only when emitting
the error event itself fails, in which case no event is delivered. -/
theorem C5_send_worker_behaviour :
    (∀ cmds sendOk, sendWorker cmds sendOk true =
      (List.replicate ((sendOk.take (takenQuotes cmds).length).count false) .errorEvent,
       takenQuotes cmds)) ∧
    (∀ (q : Quote) rest sendOk,
      sendWorker (.sendQuote q :: rest) (false :: sendOk) false = ([], [q])) := by
  constructor
  · intro cmds
    induction cmds with
    | nil => intro sendOk; rfl
    | cons c rest ih =>
      intro sendOk
      cases c with
      | stop => rfl
      | sendQuote q =>
        cases sendOk with
        | nil =>
          show (match sendWorker rest [] true with
            | (evs, qs) => (evs, q :: qs)) =
            (List.replicate ((List.take (takenQuotes (.sendQuote q :: rest)).length
              ([] : List Bool)).count false) .errorEvent,
             takenQuotes (.sendQuote q :: rest))
          rw [ih []]
          simp [takenQuotes]
        | cons b s' =>
          cases b with
          | true =>
            show (match sendWorker rest s' true with
              | (evs, qs) => (evs, q :: qs)) = _
            rw [ih s']
            simp [takenQuotes, List.count_cons]
          | false =>
            show (match sendWorker rest s' true with
              | (evs, qs) => (SCEvent.errorEvent :: evs, q :: qs)) = _
            rw [ih s']
            simp [takenQuotes, List.count_cons, List.replicate_succ]
  · intro q rest sendOk
    rfl

theorem removeLoop_no_lock_actions : ∀ (addrs m : List Nat),
    LockAction.acquireWrite ∉ (removeLoop m addrs).1 ∧
      LockAction.releaseWrite ∉ (removeLoop m addrs).1 := by
  intro addrs
  induction addrs with
  | nil => intro m; simp [removeLoop]
  | cons a rest ih =>
    intro m
    unfold removeLoop
    split_ifs with hmem
    · rcases hres : removeLoop (m.erase a) rest with ⟨tr, m2⟩
      have hih := ih (m.erase a)
      rw [hres] at hih
      simp only [List.mem_cons]
      constructor
      · intro hx
        rcases hx with hx | hx | hx
        · cases hx
        · cases hx
        · exact hih.1 hx
      · intro hx
        rcases hx with hx | hx | hx
        · cases hx
        · cases hx
        · exact hih.2 hx
    · exact ih m

/-- C6 counterexample: on the registry containing exactly address 5,
removing address 5 produces the trace acquire, remove, stop, release — the
`stop()` call at index 2 happens while the write lock is held. -/
theorem C6_counterexample :
    (removeAndStopTrace [5] [5])[2]? = some (.stopSession 5) ∧
      lockHeldBefore (removeAndStopTrace [5] [5]) 2 = true := by
  decide

/-- C6 (amended): every `stop()` call in the trace of
`remove_and_stop_clients` happens while the registry write lock is held;
the lock is released only after the whole removal loop. -/
theorem C6_stop_under_lock (m addrs : List Nat) (i : Nat) (a : Nat)
    (h : (removeAndStopTrace m addrs)[i]? = some (.stopSession a)) :
    lockHeldBefore (removeAndStopTrace m addrs) i = true := by
  unfold removeAndStopTrace at h ⊢
  split_ifs at h ⊢ with hemp
  · simp at h
  · rcases i with _ | j
    · simp at h
    · have hjlen : j + 1 <
          ((LockAction.acquireWrite :: (removeLoop m addrs).1) ++
            [LockAction.releaseWrite]).length := by
        by_contra hcon
        push_neg at hcon
        rw [List.getElem?_eq_none hcon] at h
        cases h
      rw [List.length_append, List.length_cons, List.length_singleton] at hjlen
      have hjle : j + 1 ≤ (LockAction.acquireWrite :: (removeLoop m addrs).1).length := by
        rw [List.length_cons]
        omega
      unfold lockHeldBefore
      rw [List.take_append_of_le_length hjle, List.take_succ_cons]
      have hnl := removeLoop_no_lock_actions addrs m
      have hnacq : LockAction.acquireWrite ∉ (removeLoop m addrs).1.take j := by
        intro hx
        exact hnl.1 (List.mem_of_mem_take hx)
      have hnrel : LockAction.releaseWrite ∉ (removeLoop m addrs).1.take j := by
        intro hx
        exact hnl.2 (List.mem_of_mem_take hx)
      rw [List.count_cons_self, List.count_cons_of_ne (by simp),
        List.count_eq_zero.mpr hnacq, List.count_eq_zero.mpr hnrel]
      rfl

/-- C6 witness: the amended lock-discipline theorem at a concrete
registry. -/
theorem C6_witness : lockHeldBefore (removeAndStopTrace [5] [5]) 2 = true :=
  C6_stop_under_lock [5] [5] 2 5 (by decide)

/-- C4 witness: the amended no-newline theorem at a concrete port and
ticker list. -/
theorem C4_witness :
    requestDataBytes 4444 [[65, 66]] =
      SubscribeMessage.toBytes ⟨⟨127, 0, 0, 1, 4444⟩, [[65, 66]]⟩ ∧
      (10 : Nat) ∉ requestDataBytes 4444 [[65, 66]] :=
  C4_no_newline 4444 [[65, 66]] (by decide)

theorem lookup_none_not_mem {σ : Type} : ∀ (l : List (Nat × σ)) (a : Nat),
    l.lookup a = none → a ∉ l.map Prod.fst := by
  intro l
  induction l with
  | nil => intro a h hm; cases hm
  | cons p t ih =>
    intro a h hm
    obtain ⟨k, v⟩ := p
    by_cases hk : a = k
    · subst hk
      have hself : List.lookup a ((a, v) :: t) = some v := by
        rw [show List.lookup a ((a, v) :: t) = match a == a with
          | true => some v
          | false => List.lookup a t from rfl, beq_self_eq_true]
      rw [hself] at h
      cases h
    · have hbeq : (a == k) = false := by
        simp [hk]
      have h2 : List.lookup a t = none := by
        rw [show List.lookup a ((k, v) :: t) = match a == k with
          | true => some v
          | false => List.lookup a t from rfl, hbeq] at h
        exact h
      rw [List.map_cons] at hm
      rcases List.mem_cons.mp hm with rfl | hm2
      · exact hk rfl
      · exact ih a h2 hm2

/-- C7: address uniqueness — a second `handle_new_client` with an address
already present fails with `AddressAlreadyInUse` and leaves the map
unchanged; moreover every `handle_new_client` call preserves distinctness of
the registered addresses, so no two sessions ever share an address. -/
theorem C7_address_uniqueness {σ : Type} (m : List (Nat × σ)) (address : Nat)
    (s0 : σ) (hmem : m.lookup address = some s0) (newSession : Res ServerError σ) :
    handleNewClient m address newSession = (.err (.addressAlreadyInUse address), m) ∧
    (∀ (m2 : List (Nat × σ)) (a2 : Nat) (ns : Res ServerError σ) (r : Res ServerError Unit)
      (m2' : List (Nat × σ)), handleNewClient m2 a2 ns = (r, m2') →
      (m2.map Prod.fst).Nodup → (m2'.map Prod.fst).Nodup) := by
  constructor
  · unfold handleNewClient
    rw [hmem]
  · intro m2 a2 ns r m2' hcall hnd
    unfold handleNewClient at hcall
    cases hlook : m2.lookup a2 with
    | some s =>
      rw [hlook] at hcall
      rw [Prod.mk.injEq] at hcall
      rw [← hcall.2]
      exact hnd
    | none =>
      rw [hlook] at hcall
      cases ns with
      | err e =>
        rw [Prod.mk.injEq] at hcall
        rw [← hcall.2]
        exact hnd
      | ok s =>
        rw [Prod.mk.injEq] at hcall
        rw [← hcall.2, List.map_append]
        rw [List.nodup_append]
        refine ⟨hnd, by simp, ?_⟩
        intro x hx hx2
        simp at hx2
        subst hx2
        exact lookup_none_not_mem m2 x hlook hx

/-- C7 witness: the uniqueness theorem at a concrete occupied map. -/
theorem C7_witness :
    handleNewClient [(3, ())] 3 (.ok ()) = (.err (.addressAlreadyInUse 3), [(3, ())]) :=
  (C7_address_uniqueness [(3, ())] 3 () (by decide) (.ok ())).1

end QuotesLib
